import Mathlib

/-
Verification of the homomorphic-encryption pipeline in FHE_code.py and
FHE_code_v2.py (TenSEAL CKKS/BFV scripts).

Modelling choices:
* Blob framing (holder_encrypt_* writers / analyzer_process_* and
  holder_decrypt_* readers) is embedded over byte lists (List Nat, one
  entry per byte).  Python's int.to_bytes(4, big) / int.from_bytes and
  f.read(n) (which silently returns fewer bytes at end of file) are
  translated literally.
* The BFV back end is embedded at its plaintext semantics: a ciphertext
  is the list of plaintext residues modulo the configured plain modulus;
  add / mul / sum act slotwise modulo the modulus, and decrypt returns
  the signed representative (values above modulus/2 are negative), which
  is how TenSEAL surfaces BFV results.
* The CKKS back end is embedded at its ideal plaintext semantics over
  the rationals: encryption and decryption are the identity and the
  homomorphic operations are the corresponding exact vector operations.
  The scheme-inherent approximation noise lives in the external
  cryptographic library and is outside this embedding, so statements
  "within the configured precision tolerance" are settled as exact
  identities of the ideal values.
* For the role/trust claims the operation sequence executed by each
  pipeline function is embedded as a trace of abstract scheme
  operations, translated statement by statement from the Python source.
-/

/- ===================== Blob framing (FHE_code.py, FHE_code_v2.py) ===================== -/

/-- Python's len(b).to_bytes(4, big): the 4-byte big-endian length header. -/
def toBytes4 (n : ℕ) : List ℕ :=
  [n / 2 ^ 24 % 256, n / 2 ^ 16 % 256, n / 2 ^ 8 % 256, n % 256]

/-- Python's int.from_bytes(bs, big). -/
def fromBytesBE (bs : List ℕ) : ℕ :=
  bs.foldl (fun a b => a * 256 + b) 0

/-- Reading one length-prefixed slot, as in size = int.from_bytes(f.read(4), big);
data = f.read(size).  Python's f.read returns at most the remaining bytes, which
List.take models exactly.  Returns the slot and the unread remainder. -/
def readSlot (bs : List ℕ) : List ℕ × List ℕ :=
  ((bs.drop 4).take (fromBytesBE (bs.take 4)),
   (bs.drop 4).drop (fromBytesBE (bs.take 4)))

/-- Reading n length-prefixed slots in sequence (the holder_decrypt_ckks /
holder_decrypt_bfv read pattern of FHE_code_v2.py, which reads a fixed,
a-priori-known number of prefixed slots); returns the slots and any unread
trailing bytes. -/
def readSlots : ℕ → List ℕ → List (List ℕ) × List ℕ
  | 0, bs => ([], bs)
  | n + 1, bs =>
      let p := readSlot bs
      let q := readSlots n p.2
      (p.1 :: q.1, q.2)

/-- Reading n slots where the final slot is the unprefixed remainder of the
blob (the analyzer_process_ckks / analyzer_process_bfv read pattern:
size_s = 4-byte header, bytes_s = f.read(size_s), bytes_b = f.read()). -/
def readSlotsLastRaw : ℕ → List ℕ → List (List ℕ)
  | 0, _ => []
  | 1, bs => [bs]
  | n + 2, bs =>
      let p := readSlot bs
      p.1 :: readSlotsLastRaw (n + 1) p.2

/-- Writing slots each with a 4-byte big-endian length header (the
analyzer_process_ckks / analyzer_process_bfv output pattern of
FHE_code_v2.py). -/
def serializeSlots : List (List ℕ) → List ℕ
  | [] => []
  | s :: rest => toBytes4 s.length ++ s ++ serializeSlots rest

/-- Writing slots where every slot but the last carries a 4-byte length
header and the final slot is written raw (the holder_encrypt_ckks /
holder_encrypt_bfv output pattern: header for ser_s, then ser_s, then
ser_b with no header). -/
def serializeSlotsLastRaw : List (List ℕ) → List ℕ
  | [] => []
  | [s] => s
  | s :: t :: rest => toBytes4 s.length ++ s ++ serializeSlotsLastRaw (t :: rest)

/-- The two-slot blob written by holder_encrypt_ckks / holder_encrypt_bfv:
length header of ser_s, then ser_s, then ser_b raw. -/
def holder_encrypt_blob (ser_s ser_b : List ℕ) : List ℕ :=
  toBytes4 ser_s.length ++ ser_s ++ ser_b

/-- The read performed by analyzer_process_ckks / analyzer_process_bfv on the
holder's blob: 4-byte header, that many bytes, then the rest of the file. -/
def analyzer_read_blob (blob : List ℕ) : List ℕ × List ℕ :=
  readSlot blob

/- ===================== BFV plaintext semantics ===================== -/

/-- The TenSEAL BFV context data relevant to plaintext semantics. -/
structure BfvContext where
  plain_modulus : ℤ
deriving DecidableEq

/-- setup_bfv of FHE_code.py / FHE_code_v2.py: plain_modulus=1099511922689. -/
def setup_bfv : BfvContext :=
  { plain_modulus := 1099511922689 }

/-- A BFV context reconfigured with plain modulus 101 (the overflow-guard
test configuration the specification describes). -/
def bfv_ctx_101 : BfvContext :=
  { plain_modulus := 101 }

/-- Signed reading of a BFV residue: values above modulus/2 are negative
(how TenSEAL reports decrypted BFV slots). -/
def toSigned (m r : ℤ) : ℤ :=
  if 2 * r > m then r - m else r

/-- ts.bfv_vector: encode an integer vector as its plaintext residues. -/
def bfv_vector (ctx : BfvContext) (v : List ℤ) : List ℤ :=
  v.map fun x => x % ctx.plain_modulus

namespace BFV

/-- Plaintext-scalar multiplication, slotwise modulo the plain modulus. -/
def mul (ctx : BfvContext) (c : List ℤ) (k : ℤ) : List ℤ :=
  c.map fun x => (x * k) % ctx.plain_modulus

/-- Ciphertext addition, slotwise modulo the plain modulus. -/
def add (ctx : BfvContext) (a b : List ℤ) : List ℤ :=
  List.zipWith (fun x y => (x + y) % ctx.plain_modulus) a b

/-- Slot summation (TenSEAL .sum()), a single-slot result. -/
def reduce_sum (ctx : BfvContext) (c : List ℤ) : List ℤ :=
  [c.sum % ctx.plain_modulus]

/-- BFV decryption: each residue reported as its signed representative. -/
def decrypt (ctx : BfvContext) (c : List ℤ) : List ℤ :=
  c.map (toSigned ctx.plain_modulus)

end BFV

/-- analyzer_process_bfv: enc_result = (enc_s.mul(10) + enc_b).mul(21).sum(). -/
def analyzer_process_bfv (ctx : BfvContext) (enc_s enc_b : List ℤ) : List ℤ :=
  BFV.reduce_sum ctx (BFV.mul ctx (BFV.add ctx (BFV.mul ctx enc_s 10) enc_b) 21)

/-- holder_decrypt_bfv: total_numerator = enc_total.decrypt()[0];
total_result = total_numerator / 200.0. -/
def holder_decrypt_bfv (ctx : BfvContext) (enc_total : List ℤ) : ℚ :=
  ((BFV.decrypt ctx enc_total).headI : ℚ) / 200

/-- The full exact-scheme value pipeline: encode S and B, run
analyzer_process_bfv, decrypt and divide by 200 (the division happens only
after decryption, inside holder_decrypt_bfv). -/
def bfvPipelineResult (ctx : BfvContext) (S B : List ℤ) : ℚ :=
  holder_decrypt_bfv ctx (analyzer_process_bfv ctx (bfv_vector ctx S) (bfv_vector ctx B))

/-- The exact accumulated numerator the scaling plan produces before the
final division: sum of (10*S_i + B_i)*21 over the paired records. -/
def bfvAccum (S B : List ℤ) : ℤ :=
  (List.zipWith (fun s b => (s * 10 + b) * 21) S B).sum

/-- The rational business formula: sum of (S_i + 0.1*B_i) * 1.05. -/
def groundTruth (S B : List ℤ) : ℚ :=
  (List.zipWith (fun (s b : ℤ) => ((s : ℚ) + (b : ℚ) / 10) * (105 / 100)) S B).sum

/-- analyzer_process_bfv_multiplication of FHE_code_v2.py:
enc_salary_mul = enc_s.mul(2); enc_result = enc_salary_mul.sum(). -/
def analyzer_process_bfv_multiplication (ctx : BfvContext) (enc_s : List ℤ) : List ℤ :=
  BFV.reduce_sum ctx (BFV.mul ctx enc_s 2)

/-- holder_decrypt_bfv_simple: enc_res.decrypt()[0]. -/
def holder_decrypt_bfv_simple (ctx : BfvContext) (c : List ℤ) : ℤ :=
  (BFV.decrypt ctx c).headI

/- ===================== CKKS ideal plaintext semantics ===================== -/

/-- ts.ckks_vector at ideal plaintext semantics: the plaintext itself. -/
def ckks_vector (v : List ℚ) : List ℚ := v

namespace CKKS

/-- Ciphertext addition, slotwise. -/
def add (a b : List ℚ) : List ℚ := List.zipWith (· + ·) a b

/-- Multiplication by a plaintext scalar, slotwise. -/
def mulConst (c : List ℚ) (k : ℚ) : List ℚ := c.map (· * k)

/-- Subtraction of a plaintext scalar, broadcast over the slots
(enc - plain in TenSEAL). -/
def subConst (c : List ℚ) (k : ℚ) : List ℚ := c.map (· - k)

/-- Elementwise squaring (the ** 2 applied to a ckks vector). -/
def square (c : List ℚ) : List ℚ := c.map fun x => x * x

/-- Slot summation (TenSEAL .sum()), a single-slot result. -/
def reduce_sum (c : List ℚ) : List ℚ := [c.sum]

/-- CKKS decryption at ideal semantics. -/
def decrypt (c : List ℚ) : List ℚ := c

end CKKS

/-- enc_salary_mean of analyzer_process_ckks (FHE_code_v2.py line 67):
enc_s.sum() * (1.0 / len(salaries_list)). -/
def enc_salary_mean (enc_s : List ℚ) : List ℚ :=
  CKKS.mulConst (CKKS.reduce_sum enc_s) (1 / (enc_s.length : ℚ))

/-- The plaintext mean disclosed mid-protocol:
enc_salary_mean.decrypt()[0] (FHE_code_v2.py line 68). -/
def disclosed_mean (enc_s : List ℚ) : ℚ :=
  (CKKS.decrypt (enc_salary_mean enc_s)).headI

/-- The MeanDisclosed to VarianceComputed step (FHE_code_v2.py line 68) for a
given disclosed plaintext mean mu:
((enc_s - mu) ** 2).sum() * (1.0 / len(salaries_list)). -/
def enc_variance_step (enc_s : List ℚ) (mu : ℚ) : List ℚ :=
  CKKS.mulConst (CKKS.reduce_sum (CKKS.square (CKKS.subConst enc_s mu))) (1 / (enc_s.length : ℚ))

/-- enc_salary_variance exactly as written in the source: the variance step
applied with the mean the analyzer just decrypted. -/
def enc_salary_variance (enc_s : List ℚ) : List ℚ :=
  enc_variance_step enc_s (disclosed_mean enc_s)

/-- The five-element salary vector of the end-to-end scenario:
[1200.50, 2500.00, 1800.75, 3200.10, 4500.00]. -/
def sample_salaries : List ℚ :=
  [2401 / 2, 2500, 7203 / 4, 32001 / 10, 4500]

/- ===================== Role traces (FHE_code_v2.py) ===================== -/

/-- Abstract scheme operations a pipeline function can invoke. -/
inductive FheOp
  | encodeOp
  | deserializeOp
  | reduceSumOp
  | scalarMulOp
  | decryptOp
  | subPlainOp
  | squareOp
  | addVecOp
  | serializeOp
deriving DecidableEq

/-- The TenSEAL context object as shared between roles: created once by
setup_ckks and passed whole into every stage.  It retains the secret key
(ts.context keeps the secret key unless it is explicitly dropped, and the
scripts never drop it). -/
structure TsContext where
  hasSecretKey : Bool
  hasGaloisKeys : Bool
deriving DecidableEq

/-- setup_ckks: context generation; the secret key stays in the context. -/
def setup_ckks_context : TsContext :=
  { hasSecretKey := true, hasGaloisKeys := true }

/-- The process-wide ctx_ckks of FHE_code_v2.py. -/
def ctx_ckks : TsContext := setup_ckks_context

/-- The context analyzer_process_ckks receives: the very same ctx_ckks
(the call is analyzer_process_ckks(ctx_ckks, ...)). -/
def analyzer_received_context : TsContext := ctx_ckks

/-- The sequence of scheme operations executed by analyzer_process_ckks of
FHE_code_v2.py (lines 57-95), statement by statement: two deserializations,
salary mean (sum, scale), salary variance (decrypt the mean, subtract it,
square, sum, scale), the same five operations for the bonus field, the
business formula (scale, add, scale, sum), and five result serializations. -/
def analyzer_process_ckks_ops : List FheOp :=
  [FheOp.deserializeOp, FheOp.deserializeOp,
   FheOp.reduceSumOp, FheOp.scalarMulOp,
   FheOp.decryptOp, FheOp.subPlainOp, FheOp.squareOp, FheOp.reduceSumOp, FheOp.scalarMulOp,
   FheOp.reduceSumOp, FheOp.scalarMulOp,
   FheOp.decryptOp, FheOp.subPlainOp, FheOp.squareOp, FheOp.reduceSumOp, FheOp.scalarMulOp,
   FheOp.scalarMulOp, FheOp.addVecOp, FheOp.scalarMulOp, FheOp.reduceSumOp,
   FheOp.serializeOp, FheOp.serializeOp, FheOp.serializeOp, FheOp.serializeOp, FheOp.serializeOp]

/- ===================== Helper lemmas: framing ===================== -/

lemma fromBytesBE_toBytes4 (n : ℕ) (h : n < 2 ^ 32) : fromBytesBE (toBytes4 n) = n := by
  simp only [fromBytesBE, toBytes4, List.foldl]
  omega

lemma readSlot_toBytes4 (sz : ℕ) (bs : List ℕ) (h : sz < 2 ^ 32) :
    readSlot (toBytes4 sz ++ bs) = (bs.take sz, bs.drop sz) := by
  have h4 : (4 : ℕ) = (toBytes4 sz).length := rfl
  unfold readSlot
  rw [h4, List.take_left, List.drop_left, fromBytesBE_toBytes4 sz h]

lemma readSlot_frame (s rest : List ℕ) (h : s.length < 2 ^ 32) :
    readSlot (toBytes4 s.length ++ (s ++ rest)) = (s, rest) := by
  rw [readSlot_toBytes4 s.length (s ++ rest) h, List.take_left, List.drop_left]

lemma readSlots_append (slots : List (List ℕ)) (extra : List ℕ)
    (h : ∀ s ∈ slots, s.length < 2 ^ 32) :
    readSlots slots.length (serializeSlots slots ++ extra) = (slots, extra) := by
  induction slots with
  | nil => rfl
  | cons s rest ih =>
      have hs : s.length < 2 ^ 32 := h s (List.mem_cons_self s rest)
      have hrest : ∀ t ∈ rest, t.length < 2 ^ 32 := fun t ht => h t (List.mem_cons_of_mem s ht)
      show readSlots (rest.length + 1) (serializeSlots (s :: rest) ++ extra) = (s :: rest, extra)
      have hblob : serializeSlots (s :: rest) ++ extra
          = toBytes4 s.length ++ (s ++ (serializeSlots rest ++ extra)) := by
        simp [serializeSlots, List.append_assoc]
      rw [hblob]
      simp only [readSlots, readSlot_frame s (serializeSlots rest ++ extra) hs, ih hrest]

lemma readSlotsLastRaw_frame (slots : List (List ℕ)) (hne : slots ≠ [])
    (h : ∀ s ∈ slots, s.length < 2 ^ 32) :
    readSlotsLastRaw slots.length (serializeSlotsLastRaw slots) = slots := by
  induction slots with
  | nil => exact absurd rfl hne
  | cons s rest ih =>
      cases rest with
      | nil => rfl
      | cons t rest' =>
          have hs : s.length < 2 ^ 32 := h s (List.mem_cons_self _ _)
          have hrest : ∀ u ∈ t :: rest', u.length < 2 ^ 32 :=
            fun u hu => h u (List.mem_cons_of_mem s hu)
          show readSlotsLastRaw ((t :: rest').length + 1)
              (serializeSlotsLastRaw (s :: t :: rest')) = s :: t :: rest'
          have hblob : serializeSlotsLastRaw (s :: t :: rest')
              = toBytes4 s.length ++ (s ++ serializeSlotsLastRaw (t :: rest')) := by
            simp [serializeSlotsLastRaw, List.append_assoc]
          rw [hblob]
          simp only [List.length_cons, readSlotsLastRaw,
            readSlot_frame s (serializeSlotsLastRaw (t :: rest')) hs]
          have hstep := ih (by simp) hrest
          simp only [List.length_cons] at hstep
          rw [hstep]

/- ===================== Helper lemmas: BFV arithmetic ===================== -/

lemma emod_mul_emod_right (a k m : ℤ) : a % m * k % m = a * k % m := by
  rw [Int.mul_emod, Int.emod_emod_of_dvd a dvd_rfl, ← Int.mul_emod]

lemma zipWith_emod_sum_emod (m : ℤ) (f : ℤ → ℤ → ℤ) (S B : List ℤ) :
    (List.zipWith (fun s b => f s b % m) S B).sum % m = (List.zipWith f S B).sum % m := by
  induction S generalizing B with
  | nil => rfl
  | cons s St ih =>
      cases B with
      | nil => rfl
      | cons b Bt =>
          simp only [List.zipWith_cons_cons, List.sum_cons]
          rw [Int.add_emod, Int.emod_emod_of_dvd _ dvd_rfl, ih Bt, ← Int.add_emod]

lemma map_emod_sum_emod (m : ℤ) (f : ℤ → ℤ) (l : List ℤ) :
    (l.map fun x => f x % m).sum % m = (l.map f).sum % m := by
  induction l with
  | nil => rfl
  | cons a t ih =>
      simp only [List.map_cons, List.sum_cons]
      rw [Int.add_emod, Int.emod_emod_of_dvd _ dvd_rfl, ih, ← Int.add_emod]

lemma toSigned_emod_eq (m x : ℤ) (hm : 0 < m) (h : 2 * |x| < m) :
    toSigned m (x % m) = x := by
  rcases le_or_lt 0 x with hx | hx
  · have hxm : x % m = x := by
      apply Int.emod_eq_of_lt hx
      rw [abs_of_nonneg hx] at h
      omega
    rw [hxm, toSigned, if_neg]
    rw [abs_of_nonneg hx] at h
    omega
  · have hb1 : 0 ≤ x + m := by
      rw [abs_of_neg hx] at h
      omega
    have hb2 : x + m < m := by omega
    have e1 : (x + m * 1) % m = x % m := Int.add_mul_emod_self_left x m 1
    have hxm : x % m = x + m := by
      rw [← e1, mul_one, Int.emod_eq_of_lt hb1 hb2]
    rw [hxm, toSigned, if_pos]
    · ring
    · rw [abs_of_neg hx] at h
      omega

/- ===================== Helper lemmas: pipeline evaluation ===================== -/

lemma scaled_slot_emod (m s b : ℤ) :
    (s % m * 10 % m + b % m) % m * 21 % m = (s * 10 + b) * 21 % m := by
  rw [emod_mul_emod_right (s % m * 10 % m + b % m) 21 m,
    emod_mul_emod_right s 10 m, Int.mul_emod, Int.emod_add_emod, Int.add_emod_emod,
    ← Int.mul_emod]

lemma analyzer_slots (m : ℤ) (S B : List ℤ) :
    List.map (fun x => x * 21 % m)
      (List.zipWith (fun x y => (x + y) % m)
        (List.map (fun x => x * 10 % m) (List.map (fun x => x % m) S))
        (List.map (fun x => x % m) B))
    = List.zipWith (fun s b => (s * 10 + b) * 21 % m) S B := by
  induction S generalizing B with
  | nil => rfl
  | cons s St ih =>
      cases B with
      | nil => rfl
      | cons b Bt =>
          simp only [List.map_cons, List.zipWith_cons_cons]
          rw [scaled_slot_emod m s b, ih Bt]

lemma analyzer_process_bfv_eval (ctx : BfvContext) (S B : List ℤ) :
    analyzer_process_bfv ctx (bfv_vector ctx S) (bfv_vector ctx B)
      = [bfvAccum S B % ctx.plain_modulus] := by
  unfold analyzer_process_bfv BFV.reduce_sum BFV.mul BFV.add bfv_vector
  rw [analyzer_slots]
  unfold bfvAccum
  exact congrArg (fun z => [z])
    (zipWith_emod_sum_emod ctx.plain_modulus (fun s b => (s * 10 + b) * 21) S B)

lemma mul2_slots (m : ℤ) (S : List ℤ) :
    List.map (fun x => x * 2 % m) (List.map (fun x => x % m) S)
      = List.map (fun x => x * 2 % m) S := by
  induction S with
  | nil => rfl
  | cons s St ih =>
      simp only [List.map_cons]
      rw [emod_mul_emod_right s 2 m, ih]

lemma sum_map_mul_two (S : List ℤ) : (List.map (fun x => x * 2) S).sum = S.sum * 2 := by
  induction S with
  | nil => simp
  | cons s St ih =>
      simp only [List.map_cons, List.sum_cons, ih]
      ring

lemma analyzer_process_bfv_multiplication_eval (ctx : BfvContext) (S : List ℤ) :
    analyzer_process_bfv_multiplication ctx (bfv_vector ctx S)
      = [S.sum * 2 % ctx.plain_modulus] := by
  unfold analyzer_process_bfv_multiplication BFV.reduce_sum BFV.mul bfv_vector
  rw [mul2_slots]
  have h1 := map_emod_sum_emod ctx.plain_modulus (fun x => x * 2) S
  rw [h1, sum_map_mul_two]

lemma groundTruth_eq_accum (S B : List ℤ) :
    groundTruth S B = (bfvAccum S B : ℚ) / 200 := by
  unfold groundTruth bfvAccum
  induction S generalizing B with
  | nil => simp
  | cons s St ih =>
      cases B with
      | nil => simp
      | cons b Bt =>
          simp only [List.zipWith_cons_cons, List.sum_cons]
          rw [ih Bt]
          push_cast
          ring

/- ===================== Claim theorems ===================== -/

/-- C1, counterexample to the claim as stated: the input S=[4000000000],
B=[0] satisfies the stated bound (worst-case accumulated magnitude
max|value| * (10+1) * 21 * record_count below the plaintext modulus), yet
the decrypted pipeline result divided by 200 is not the rational formula
value: the accumulated numerator 840000000000 exceeds half the modulus, so
BFV decryption reports it as the negative representative. -/
theorem c1_counterexample :
    (4000000000 : ℤ) * (10 + 1) * 21 * 1 < setup_bfv.plain_modulus ∧
    bfvPipelineResult setup_bfv [4000000000] [0] ≠ groundTruth [4000000000] [0] := by
  constructor
  · decide
  · have hnum : analyzer_process_bfv setup_bfv (bfv_vector setup_bfv [4000000000])
        (bfv_vector setup_bfv [0]) = [840000000000] := by decide
    have h1 : bfvPipelineResult setup_bfv [4000000000] [0] = (-259511922689 : ℚ) / 200 := by
      unfold bfvPipelineResult holder_decrypt_bfv
      rw [hnum]
      norm_num [BFV.decrypt, toSigned, List.headI, setup_bfv]
    have h2 : groundTruth [4000000000] [0] = 4200000000 := by
      simp only [groundTruth, List.zipWith_cons_cons, List.zipWith_nil_right,
        List.sum_cons, List.sum_nil]
      norm_num
    rw [h1, h2]
    norm_num

/-- C1, amended: for equal-length integer vectors S and B whose accumulated
scaled magnitude stays below HALF the plaintext modulus, the exact-scheme
pipeline — evaluate (10*S + B)*21 homomorphically, sum the slots, decrypt,
and only then divide the scalar by 200 — yields exactly the rational value
sum of (S_i + 0.1*B_i) * 1.05, with no rounding. -/
theorem c1_exact_pipeline (ctx : BfvContext) (S B : List ℤ)
    (hm : 0 < ctx.plain_modulus) (hlen : S.length = B.length)
    (hb : 2 * |bfvAccum S B| < ctx.plain_modulus) :
    bfvPipelineResult ctx S B = groundTruth S B := by
  unfold bfvPipelineResult holder_decrypt_bfv
  rw [analyzer_process_bfv_eval]
  unfold BFV.decrypt
  simp only [List.map_cons, List.map_nil, List.headI]
  rw [toSigned_emod_eq ctx.plain_modulus (bfvAccum S B) hm hb, groundTruth_eq_accum]

/-- C1, witness: the amended theorem applied at the concrete configured
context with S=[1,2], B=[3,4]; the accumulated numerator is 777 and the
pipeline returns 777/200 exactly. -/
theorem c1_witness :
    0 < setup_bfv.plain_modulus ∧
    ([1, 2] : List ℤ).length = ([3, 4] : List ℤ).length ∧
    2 * |bfvAccum [1, 2] [3, 4]| < setup_bfv.plain_modulus ∧
    bfvPipelineResult setup_bfv [1, 2] [3, 4] = groundTruth [1, 2] [3, 4] :=
  ⟨by decide, rfl, by decide,
    c1_exact_pipeline setup_bfv [1, 2] [3, 4] (by decide) rfl (by decide)⟩

/-- C2: serializing a non-empty sequence of ciphertext byte strings — each
slot carrying a 4-byte big-endian length header, with the final slot's
header either present (the FHE_code_v2 writer pattern) or omitted (the
holder_encrypt writer pattern) — and deserializing with the slot count
known a priori reconstructs exactly the original slots; in particular the
two-slot blob in which only the first slot is prefixed and the second slot
is the remainder is parsed back into both byte strings byte-identically. -/
theorem c2_blob_roundtrip (slots : List (List ℕ)) (hne : slots ≠ [])
    (hlen : ∀ s ∈ slots, s.length < 2 ^ 32) :
    readSlots slots.length (serializeSlots slots) = (slots, []) ∧
    readSlotsLastRaw slots.length (serializeSlotsLastRaw slots) = slots ∧
    ∀ ser_s ser_b : List ℕ, ser_s.length < 2 ^ 32 →
      analyzer_read_blob (holder_encrypt_blob ser_s ser_b) = (ser_s, ser_b) := by
  refine ⟨?_, readSlotsLastRaw_frame slots hne hlen, ?_⟩
  · have h1 := readSlots_append slots [] hlen
    rwa [List.append_nil] at h1
  · intro ser_s ser_b hs
    unfold analyzer_read_blob holder_encrypt_blob
    rw [List.append_assoc]
    exact readSlot_frame ser_s ser_b hs

/-- C2, witness: the round trip at a concrete two-slot blob, including the
holder_encrypt / analyzer_read two-slot layout in which only the first slot
carries a length header. -/
theorem c2_witness :
    ([[1, 2, 3], [4, 5]] : List (List ℕ)) ≠ [] ∧
    (∀ s ∈ ([[1, 2, 3], [4, 5]] : List (List ℕ)), s.length < 2 ^ 32) ∧
    readSlots 2 (serializeSlots [[1, 2, 3], [4, 5]]) = ([[1, 2, 3], [4, 5]], []) ∧
    readSlotsLastRaw 2 (serializeSlotsLastRaw [[1, 2, 3], [4, 5]]) = [[1, 2, 3], [4, 5]] ∧
    analyzer_read_blob (holder_encrypt_blob [1, 2, 3] [4, 5]) = ([1, 2, 3], [4, 5]) :=
  ⟨by decide, by decide,
    (c2_blob_roundtrip [[1, 2, 3], [4, 5]] (by decide) (by decide)).1,
    (c2_blob_roundtrip [[1, 2, 3], [4, 5]] (by decide) (by decide)).2.1,
    (c2_blob_roundtrip [[1, 2, 3], [4, 5]] (by decide) (by decide)).2.2 [1, 2, 3] [4, 5] (by decide)⟩

/-- C3: in the MeanDisclosed to VarianceComputed step, for every encrypted
vector v and disclosed plaintext mean mu, the decrypted variance — computed
as reduce_sum of the elementwise square of (v minus mu as a plaintext
constant), scaled by 1/N — equals the population variance
(sum of (v_i - mu)^2) / N; at the ideal plaintext semantics of the
approximate scheme the agreement is exact, hence within any configured
precision tolerance. -/
theorem c3_variance_step (v : List ℚ) (mu : ℚ) :
    (CKKS.decrypt (enc_variance_step v mu)).headI
      = (v.map fun x => (x - mu) ^ 2).sum / (v.length : ℚ) := by
  unfold enc_variance_step CKKS.decrypt CKKS.mulConst CKKS.reduce_sum CKKS.square CKKS.subConst
  simp only [List.map_map, List.map_cons, List.map_nil, List.headI]
  have hf : ((fun x : ℚ => x * x) ∘ fun x : ℚ => x - mu) = fun x : ℚ => (x - mu) ^ 2 := by
    funext x
    simp only [Function.comp]
    ring
  rw [hf, mul_one_div]

/-- C4, counterexample to the claim as stated: the analyzer role does invoke
decrypt — the operation trace of analyzer_process_ckks (FHE_code_v2.py)
contains a decryption (of the encrypted mean, before the variance step). -/
theorem c4_counterexample : FheOp.decryptOp ∈ analyzer_process_ckks_ops := by decide

/-- C4, amended: during the statistics computation the mean decryptions are
performed inside the analyzer's own processing routine (twice: salary mean
and bonus mean), and the context the analyzer receives is the very
process-wide context produced by setup, which retains the secret key — so
the decryption capability crosses the holder-to-analyzer boundary instead
of remaining with the holder. -/
theorem c4_analyzer_decrypts :
    analyzer_process_ckks_ops.count FheOp.decryptOp = 2 ∧
    analyzer_received_context.hasSecretKey = true ∧
    analyzer_received_context = setup_ckks_context := by decide

/-- C5, counterexample to the claim as stated: with the plain modulus
reconfigured to 101 and input S=[5], B=[0] the scaled worst-case magnitude
5*(10+1)*21*1 = 1155 reaches the modulus, yet no failure occurs: the
homomorphic evaluation still runs, producing the wrapped residue 40
(= 1050 mod 101), and the pipeline returns 40/200 = 1/5 instead of the
true value 5.25 — there is no OverflowBudgetError anywhere in the code. -/
theorem c5_counterexample :
    (bfv_ctx_101.plain_modulus : ℤ) ≤ 5 * (10 + 1) * 21 * 1 ∧
    analyzer_process_bfv bfv_ctx_101 (bfv_vector bfv_ctx_101 [5])
      (bfv_vector bfv_ctx_101 [0]) = [40] ∧
    bfvPipelineResult bfv_ctx_101 [5] [0] = 1 / 5 ∧
    (1 / 5 : ℚ) ≠ groundTruth [5] [0] := by
  refine ⟨by decide, by decide, ?_, ?_⟩
  · have hnum : analyzer_process_bfv bfv_ctx_101 (bfv_vector bfv_ctx_101 [5])
        (bfv_vector bfv_ctx_101 [0]) = [40] := by decide
    unfold bfvPipelineResult holder_decrypt_bfv
    rw [hnum]
    norm_num [BFV.decrypt, toSigned, List.headI, bfv_ctx_101]
  · have h2 : groundTruth [5] [0] = 21 / 4 := by
      simp only [groundTruth, List.zipWith_cons_cons, List.zipWith_nil_right,
        List.sum_cons, List.sum_nil]
      norm_num
    rw [h2]
    norm_num

/-- C5, amended: the code performs no overflow check at all — for every
context and every pair of input vectors the homomorphic evaluation
proceeds, and the result is the exact accumulated numerator reduced modulo
the configured plaintext modulus, reported through its signed
representative after decryption; out-of-range inputs therefore wrap
silently rather than aborting with OverflowBudgetError. -/
theorem c5_no_overflow_guard (ctx : BfvContext) (S B : List ℤ) :
    analyzer_process_bfv ctx (bfv_vector ctx S) (bfv_vector ctx B)
      = [bfvAccum S B % ctx.plain_modulus] ∧
    bfvPipelineResult ctx S B
      = ((toSigned ctx.plain_modulus (bfvAccum S B % ctx.plain_modulus) : ℤ) : ℚ) / 200 := by
  refine ⟨analyzer_process_bfv_eval ctx S B, ?_⟩
  unfold bfvPipelineResult holder_decrypt_bfv
  rw [analyzer_process_bfv_eval]
  rfl

/-- C6: for every integer vector v with max|v_i| < modulus/4, encoding under
the exact scheme and decrypting returns v exactly, elementwise; the decrypt
semantics itself reads residues modulo the configured plaintext modulus as
signed values (negative when they exceed modulus/2). -/
theorem c6_exact_roundtrip (ctx : BfvContext) (v : List ℤ)
    (hm : 0 < ctx.plain_modulus)
    (hb : ∀ x ∈ v, 4 * |x| < ctx.plain_modulus) :
    BFV.decrypt ctx (bfv_vector ctx v) = v := by
  unfold BFV.decrypt bfv_vector
  rw [List.map_map]
  have hpt : ∀ x ∈ v, (toSigned ctx.plain_modulus ∘ fun y => y % ctx.plain_modulus) x = id x := by
    intro x hx
    have habs := abs_nonneg x
    have h4 := hb x hx
    exact toSigned_emod_eq ctx.plain_modulus x hm (by linarith)
  exact (List.map_congr_left hpt).trans (List.map_id v)

/-- C6, witness: the configured context decrypts the encoding of [3, -5, 20]
back to [3, -5, 20]. -/
theorem c6_witness :
    0 < setup_bfv.plain_modulus ∧
    (∀ x ∈ ([3, -5, 20] : List ℤ), 4 * |x| < setup_bfv.plain_modulus) ∧
    BFV.decrypt setup_bfv (bfv_vector setup_bfv [3, -5, 20]) = [3, -5, 20] :=
  ⟨by decide, by decide, c6_exact_roundtrip setup_bfv [3, -5, 20] (by decide) (by decide)⟩

/-- C7: the plaintext mean actually disclosed and reused by the variance
computation — enc_s.sum() * (1/N) decrypted at slot 0 — equals
decrypt(reduce_sum(v))[0] / N computed independently on the same encrypted
vector; at ideal plaintext semantics the two are exactly equal, hence the
disclosed value is not altered between disclosure and reuse. -/
theorem c7_disclosed_mean_consistent (v : List ℚ) :
    disclosed_mean v
      = (CKKS.decrypt (CKKS.reduce_sum (ckks_vector v))).headI / (v.length : ℚ) := by
  unfold disclosed_mean enc_salary_mean CKKS.decrypt CKKS.mulConst CKKS.reduce_sum ckks_vector
  simp only [List.map_cons, List.map_nil, List.headI]
  exact mul_one_div _ _

/-- C8, counterexample to the claim as stated: a blob whose declared 4-byte
length header (5) exceeds the remaining two bytes is parsed without any
failure, silently yielding the truncated slot [1, 2]; and a blob with two
trailing bytes after the expected slot count is consumed is also parsed
without any failure, the trailing bytes simply left unread — no
FramingError exists in the code. -/
theorem c8_counterexample :
    fromBytesBE [0, 0, 0, 5] = 5 ∧
    readSlots 1 ([0, 0, 0, 5] ++ [1, 2]) = ([[1, 2]], []) ∧
    ([1, 2] : List ℕ).length < 5 ∧
    readSlots 1 ([0, 0, 0, 1] ++ [7, 9, 9]) = ([[7]], [9, 9]) := by decide

/-- C8, amended: deserialization performs no framing validation — for every
declared slot size the reader returns the available bytes (truncating
silently when fewer than the declared size remain, exactly Python's
f.read behaviour) and leaves any trailing bytes unconsumed without
reporting them; no error path exists. -/
theorem c8_no_framing_check (sz : ℕ) (bs : List ℕ) (h : sz < 2 ^ 32) :
    readSlot (toBytes4 sz ++ bs) = (bs.take sz, bs.drop sz) ∧
    (readSlots 1 (toBytes4 sz ++ bs)).2 = bs.drop sz := by
  refine ⟨readSlot_toBytes4 sz bs h, ?_⟩
  simp only [readSlots, readSlot_toBytes4 sz bs h]

/-- C8, witness: the amended theorem at the concrete truncated blob with
declared size 5 but only two payload bytes. -/
theorem c8_witness :
    (5 : ℕ) < 2 ^ 32 ∧
    readSlot (toBytes4 5 ++ [1, 2]) = (([1, 2] : List ℕ).take 5, ([1, 2] : List ℕ).drop 5) ∧
    (readSlots 1 (toBytes4 5 ++ [1, 2])).2 = ([1, 2] : List ℕ).drop 5 :=
  ⟨by decide, (c8_no_framing_check 5 [1, 2] (by decide)).1,
    (c8_no_framing_check 5 [1, 2] (by decide)).2⟩

/-- C9: under the approximate scheme's ideal plaintext semantics decryption
returns every encoded vector exactly (hence within the configured precision
tolerance of it, elementwise); and the sum/len mean of the 5-element salary
vector [1200.50, 2500.00, 1800.75, 3200.10, 4500.00] decrypts to exactly
2640.27, which is within the tolerance 1/100 of the expected mean. -/
theorem c9_ckks_mean_scenario :
    (∀ v : List ℚ, CKKS.decrypt (ckks_vector v) = v) ∧
    disclosed_mean sample_salaries = 264027 / 100 ∧
    |disclosed_mean sample_salaries - 264027 / 100| ≤ 1 / 100 := by
  have h2 : disclosed_mean sample_salaries = 264027 / 100 := by
    simp only [disclosed_mean, enc_salary_mean, CKKS.decrypt, CKKS.mulConst,
      CKKS.reduce_sum, sample_salaries, List.map_cons, List.map_nil, List.headI,
      List.sum_cons, List.sum_nil, List.length_cons, List.length_nil]
    norm_num
  refine ⟨fun v => rfl, h2, ?_⟩
  rw [h2]
  norm_num

/-- C10: for every integer salary vector whose doubled sum stays inside the
signed plaintext range (absolute value below half the modulus), the
exact-scheme multiplication benchmark — scalar-multiply every slot by 2,
reduce_sum, decrypt, take slot 0 — returns exactly twice the sum of the
salaries, with no error term. -/
theorem c10_mul_benchmark (ctx : BfvContext) (S : List ℤ)
    (hm : 0 < ctx.plain_modulus) (hb : 2 * |2 * S.sum| < ctx.plain_modulus) :
    holder_decrypt_bfv_simple ctx (analyzer_process_bfv_multiplication ctx (bfv_vector ctx S))
      = 2 * S.sum := by
  rw [analyzer_process_bfv_multiplication_eval]
  unfold holder_decrypt_bfv_simple BFV.decrypt
  simp only [List.map_cons, List.map_nil, List.headI]
  rw [mul_comm S.sum 2]
  exact toSigned_emod_eq ctx.plain_modulus (2 * S.sum) hm hb

/-- C10, witness: the benchmark at the configured context on [1, 2, 3]
returns 12 = 2 * 6 exactly. -/
theorem c10_witness :
    0 < setup_bfv.plain_modulus ∧
    2 * |2 * ([1, 2, 3] : List ℤ).sum| < setup_bfv.plain_modulus ∧
    holder_decrypt_bfv_simple setup_bfv
        (analyzer_process_bfv_multiplication setup_bfv (bfv_vector setup_bfv [1, 2, 3]))
      = 2 * ([1, 2, 3] : List ℤ).sum :=
  ⟨by decide, by decide, c10_mul_benchmark setup_bfv [1, 2, 3] (by decide) (by decide)⟩
